import Mathlib

/-!
Verification of the `pearsh` tokenizer (`src/lexer.rs`).

The Rust `String` input is modelled by its sequence of characters
(`List Char`); the `Peekable<Chars>` iterator is the not-yet-consumed
suffix of that list.  The scanner calls the two standard-library
character classifiers `char::is_alphanumeric` (the Unicode Alphabetic
property plus the Number categories) and `char::is_whitespace` (the
Unicode White_Space property); these are external Unicode tables, not
code of this repository, so the scanner is modelled generically over
them (`scanStepWith`, `tokenizeWith`).  Properties whose truth depends
on the classification tables are proved for arbitrary classifiers,
assuming only recorded facts of those tables (for instance that the
specially-matched punctuation characters are not alphanumeric and that
whitespace is disjoint from both).  Properties that hold branch-uniformly
— for every classifier — are stated over a fixed instantiation
(`scanStep`, `tokenize`, instantiated with Lean's ASCII predicates) for
concreteness.
-/

set_option maxHeartbeats 1600000

namespace Pearsh

/-- The `TokenKind` enumeration from `src/lexer.rs`. -/
inductive TokenKind where
  | Word
  | Semicolon
  | Ampersand
  | Dollar
  | Assign
  | OneQuoteStr
  | TwoQuoteStr
  | Pipe
  | Redirect
  | Equality
  | Inequality
  | LogicalOr
  | LogicalAnd
  | LogicalNot
  | CatRedirect
  | LParen
  | RParen
  | LCurly
  | RCurly
  | LSquare
  | RSquare
  | TypeInt
  | TypeLong
  | TypeChar
  | TypeFloat
  | TypeDouble
  | Newline
  | Unknown
  | While
  | For
  | If
  | Elif
  | Else
  deriving DecidableEq, Repr

/-- The `Token` record from `src/lexer.rs`: a kind together with its
lexeme text (the Rust `String` lexeme modelled as a `List Char`). -/
structure Token where
  kind : TokenKind
  lexeme : List Char
  deriving DecidableEq, Repr

/-- `match_two_or_one` from `src/lexer.rs`.  The mutated iterator is
returned alongside the token.  The Rust function panics (via `expect`)
when the iterator is exhausted; that panic is modelled by `none`. -/
def match_two_or_one (iter : List Char) (second : Char)
    (if_not_match : TokenKind) (if_match : TokenKind) :
    Option (Token × List Char) :=
  match iter with
  | [] => none
  | first :: rest =>
    match rest with
    | next_char :: rest2 =>
      if next_char = second then
        some ({ kind := if_match, lexeme := [first, second] }, rest2)
      else
        some ({ kind := if_not_match, lexeme := [first] }, next_char :: rest2)
    | [] => some ({ kind := if_not_match, lexeme := [first] }, [])

/-- The keyword classification of a scanned alphanumeric run (the inner
`match lexeme.as_str()` of the word branch of `tokenize`). -/
def keywordKind (lexeme : List Char) : TokenKind :=
  if lexeme = "while".data then .While
  else if lexeme = "for".data then .For
  else if lexeme = "if".data then .If
  else if lexeme = "elif".data then .Elif
  else if lexeme = "else".data then .Else
  else .Word

/-- One iteration of the scanning loop of `tokenize` in `src/lexer.rs`:
the `match` on the peeked character, returning the emitted token (`none`
for discarded whitespace) together with the remaining input.  On empty
input the loop body is never entered; that case returns `(none, [])`.
The two standard-library classifiers `char::is_alphanumeric` and
`char::is_whitespace` (external Unicode tables) are parameters. -/
def scanStepWith (is_alphanumeric is_whitespace : Char → Bool)
    (input : List Char) : Option Token × List Char :=
  match input with
  | [] => (none, [])
  | c :: rest =>
    if c = '$' then (some { kind := .Dollar, lexeme := [c] }, rest)
    else if c = ';' then (some { kind := .Semicolon, lexeme := [c] }, rest)
    else if c = '(' then (some { kind := .LParen, lexeme := [c] }, rest)
    else if c = ')' then (some { kind := .RParen, lexeme := [c] }, rest)
    else if c = '{' then (some { kind := .LCurly, lexeme := [c] }, rest)
    else if c = '}' then (some { kind := .RCurly, lexeme := [c] }, rest)
    else if c = '[' then (some { kind := .LSquare, lexeme := [c] }, rest)
    else if c = ']' then (some { kind := .RSquare, lexeme := [c] }, rest)
    else if c = '=' then
      match match_two_or_one (c :: rest) '=' .Assign .Equality with
      | some (t, r) => (some t, r)
      | none => (none, rest)
    else if c = '!' then
      match match_two_or_one (c :: rest) '=' .LogicalNot .Inequality with
      | some (t, r) => (some t, r)
      | none => (none, rest)
    else if c = '|' then
      match match_two_or_one (c :: rest) '|' .Pipe .LogicalOr with
      | some (t, r) => (some t, r)
      | none => (none, rest)
    else if c = '&' then
      match match_two_or_one (c :: rest) '&' .Ampersand .LogicalAnd with
      | some (t, r) => (some t, r)
      | none => (none, rest)
    else if c = '>' then
      match match_two_or_one (c :: rest) '>' .Redirect .CatRedirect with
      | some (t, r) => (some t, r)
      | none => (none, rest)
    else if is_alphanumeric c then
      let lexeme := (c :: rest).takeWhile is_alphanumeric
      (some { kind := keywordKind lexeme, lexeme := lexeme },
       (c :: rest).dropWhile is_alphanumeric)
    else if c = '\'' ∨ c = '"' then
      let word := rest.takeWhile (fun x => x != c)
      let r := (rest.dropWhile (fun x => x != c)).drop 1
      if c = '\'' then (some { kind := .OneQuoteStr, lexeme := word }, r)
      else (some { kind := .TwoQuoteStr, lexeme := '"' :: word ++ ['"'] }, r)
    else if c = '\n' then (some { kind := .Newline, lexeme := ['\\', 'n'] }, rest)
    else if is_whitespace c then (none, rest)
    else (some { kind := .Unknown, lexeme := [c] }, rest)

/-- The scanning step at a fixed instantiation of the two classifiers
(Lean's ASCII predicates), used for the properties that hold for every
classifier. -/
def scanStep (input : List Char) : Option Token × List Char :=
  scanStepWith Char.isAlphanum Char.isWhitespace input

/-! Unfolding equations for `match_two_or_one` and for the individual
branches of `scanStep`. -/

theorem match_two_or_one_nil (s : Char) (k1 k2 : TokenKind) :
    match_two_or_one [] s k1 k2 = none := rfl

theorem match_two_or_one_single (f s : Char) (k1 k2 : TokenKind) :
    match_two_or_one [f] s k1 k2 = some ({ kind := k1, lexeme := [f] }, []) := rfl

theorem match_two_or_one_cons (f x : Char) (rest : List Char) (s : Char)
    (k1 k2 : TokenKind) :
    match_two_or_one (f :: x :: rest) s k1 k2 =
      if x = s then some ({ kind := k2, lexeme := [f, s] }, rest)
      else some ({ kind := k1, lexeme := [f] }, x :: rest) := rfl

theorem scanStep_nil : scanStep [] = (none, []) := rfl

theorem scanStep_dollar (rest : List Char) :
    scanStep ('$' :: rest) = (some { kind := .Dollar, lexeme := ['$'] }, rest) := rfl

theorem scanStep_semicolon (rest : List Char) :
    scanStep (';' :: rest) = (some { kind := .Semicolon, lexeme := [';'] }, rest) := rfl

theorem scanStep_lparen (rest : List Char) :
    scanStep ('(' :: rest) = (some { kind := .LParen, lexeme := ['('] }, rest) := rfl

theorem scanStep_rparen (rest : List Char) :
    scanStep (')' :: rest) = (some { kind := .RParen, lexeme := [')'] }, rest) := rfl

theorem scanStep_lcurly (rest : List Char) :
    scanStep ('{' :: rest) = (some { kind := .LCurly, lexeme := ['{'] }, rest) := rfl

theorem scanStep_rcurly (rest : List Char) :
    scanStep ('}' :: rest) = (some { kind := .RCurly, lexeme := ['}'] }, rest) := rfl

theorem scanStep_lsquare (rest : List Char) :
    scanStep ('[' :: rest) = (some { kind := .LSquare, lexeme := ['['] }, rest) := rfl

theorem scanStep_rsquare (rest : List Char) :
    scanStep (']' :: rest) = (some { kind := .RSquare, lexeme := [']'] }, rest) := rfl

theorem scanStep_assign_one :
    scanStep ['='] = (some { kind := .Assign, lexeme := ['='] }, []) := rfl

theorem scanStep_bang_one :
    scanStep ['!'] = (some { kind := .LogicalNot, lexeme := ['!'] }, []) := rfl

theorem scanStep_pipe_one :
    scanStep ['|'] = (some { kind := .Pipe, lexeme := ['|'] }, []) := rfl

theorem scanStep_amp_one :
    scanStep ['&'] = (some { kind := .Ampersand, lexeme := ['&'] }, []) := rfl

theorem scanStep_gt_one :
    scanStep ['>'] = (some { kind := .Redirect, lexeme := ['>'] }, []) := rfl

theorem scanStep_assign (x : Char) (rest : List Char) :
    scanStep ('=' :: x :: rest) =
      if x = '=' then (some { kind := .Equality, lexeme := ['=', '='] }, rest)
      else (some { kind := .Assign, lexeme := ['='] }, x :: rest) := by
  by_cases hx : x = '=' <;> simp [scanStep, scanStepWith, match_two_or_one, hx]

theorem scanStep_bang (x : Char) (rest : List Char) :
    scanStep ('!' :: x :: rest) =
      if x = '=' then (some { kind := .Inequality, lexeme := ['!', '='] }, rest)
      else (some { kind := .LogicalNot, lexeme := ['!'] }, x :: rest) := by
  by_cases hx : x = '=' <;> simp [scanStep, scanStepWith, match_two_or_one, hx]

theorem scanStep_pipe (x : Char) (rest : List Char) :
    scanStep ('|' :: x :: rest) =
      if x = '|' then (some { kind := .LogicalOr, lexeme := ['|', '|'] }, rest)
      else (some { kind := .Pipe, lexeme := ['|'] }, x :: rest) := by
  by_cases hx : x = '|' <;> simp [scanStep, scanStepWith, match_two_or_one, hx]

theorem scanStep_amp (x : Char) (rest : List Char) :
    scanStep ('&' :: x :: rest) =
      if x = '&' then (some { kind := .LogicalAnd, lexeme := ['&', '&'] }, rest)
      else (some { kind := .Ampersand, lexeme := ['&'] }, x :: rest) := by
  by_cases hx : x = '&' <;> simp [scanStep, scanStepWith, match_two_or_one, hx]

theorem scanStep_gt (x : Char) (rest : List Char) :
    scanStep ('>' :: x :: rest) =
      if x = '>' then (some { kind := .CatRedirect, lexeme := ['>', '>'] }, rest)
      else (some { kind := .Redirect, lexeme := ['>'] }, x :: rest) := by
  by_cases hx : x = '>' <;> simp [scanStep, scanStepWith, match_two_or_one, hx]

/-- A character satisfying a Boolean predicate is distinct from any
character that does not. -/
theorem pred_ne {a : Char → Bool} {c d : Char} (hc : a c = true)
    (hd : a d = false) : c ≠ d := by
  intro he
  subst he
  rw [hc] at hd
  cases hd

/-- The characters with a dedicated `match` arm before the word branch:
the eight single-character tokens and the five two-character seeds. -/
def matchedPunct : List Char :=
  ['$', ';', '(', ')', '{', '}', '[', ']', '=', '!', '|', '&', '>']

/-- The characters with any dedicated `match` arm: `matchedPunct` plus
the two quote characters (the newline is treated separately). -/
def specialChars : List Char := matchedPunct ++ ['\'', '"']

/-- The word branch, for an arbitrary alphanumeric classifier: it fires
at any character the classifier accepts, provided (as is true of Rust's
`char::is_alphanumeric`) the classifier rejects the thirteen
specially-matched punctuation characters tried before it. -/
theorem scanStepWith_word (a w : Char → Bool) (c : Char) (rest : List Char)
    (hpunct : ∀ d ∈ matchedPunct, a d = false) (hc : a c = true) :
    scanStepWith a w (c :: rest) =
      (some { kind := keywordKind ((c :: rest).takeWhile a),
              lexeme := (c :: rest).takeWhile a },
       (c :: rest).dropWhile a) := by
  simp [scanStepWith, hc,
    pred_ne hc (hpunct '$' (by decide)), pred_ne hc (hpunct ';' (by decide)),
    pred_ne hc (hpunct '(' (by decide)), pred_ne hc (hpunct ')' (by decide)),
    pred_ne hc (hpunct '{' (by decide)), pred_ne hc (hpunct '}' (by decide)),
    pred_ne hc (hpunct '[' (by decide)), pred_ne hc (hpunct ']' (by decide)),
    pred_ne hc (hpunct '=' (by decide)), pred_ne hc (hpunct '!' (by decide)),
    pred_ne hc (hpunct '|' (by decide)), pred_ne hc (hpunct '&' (by decide)),
    pred_ne hc (hpunct '>' (by decide))]

theorem scanStep_word (c : Char) (rest : List Char) (hc : c.isAlphanum = true) :
    scanStep (c :: rest) =
      (some { kind := keywordKind ((c :: rest).takeWhile Char.isAlphanum),
              lexeme := (c :: rest).takeWhile Char.isAlphanum },
       (c :: rest).dropWhile Char.isAlphanum) :=
  scanStepWith_word Char.isAlphanum Char.isWhitespace c rest (by decide) hc

/-- The newline branch, for an arbitrary alphanumeric classifier that (as
Rust's does) rejects the newline character. -/
theorem scanStepWith_newline (a w : Char → Bool) (ha : a '\n' = false)
    (rest : List Char) :
    scanStepWith a w ('\n' :: rest) =
      (some { kind := .Newline, lexeme := ['\\', 'n'] }, rest) := by
  simp [scanStepWith, ha]

/-- The whitespace branch, for arbitrary classifiers: any whitespace
character other than the newline is consumed with no token, provided (as
is true of Rust's classifiers) it is not alphanumeric and is none of the
fifteen specially-matched characters. -/
theorem scanStepWith_ws (a w : Char → Bool) (c : Char) (rest : List Char)
    (hw : w c = true) (hn : c ≠ '\n') (ha : a c = false)
    (hsp : c ∉ specialChars) :
    scanStepWith a w (c :: rest) = (none, rest) := by
  simp only [specialChars, matchedPunct, List.cons_append, List.nil_append,
    List.mem_cons, List.not_mem_nil, or_false, not_or] at hsp
  obtain ⟨n1, n2, n3, n4, n5, n6, n7, n8, n9, n10, n11, n12, n13, n14, n15⟩ := hsp
  simp [scanStepWith, hw, hn, ha, n1, n2, n3, n4, n5, n6, n7, n8, n9, n10,
    n11, n12, n13, n14, n15]

theorem scanStep_one_quote (rest : List Char) :
    scanStep ('\'' :: rest) =
      (some { kind := .OneQuoteStr,
              lexeme := rest.takeWhile (fun x => x != '\'') },
       (rest.dropWhile (fun x => x != '\'')).drop 1) := rfl

theorem scanStep_two_quote (rest : List Char) :
    scanStep ('"' :: rest) =
      (some { kind := .TwoQuoteStr,
              lexeme := '"' :: rest.takeWhile (fun x => x != '"') ++ ['"'] },
       (rest.dropWhile (fun x => x != '"')).drop 1) := rfl

theorem scanStep_newline (rest : List Char) :
    scanStep ('\n' :: rest) =
      (some { kind := .Newline, lexeme := ['\\', 'n'] }, rest) := rfl

theorem scanStep_ws (c : Char) (rest : List Char) (hw : c.isWhitespace = true)
    (hn : c ≠ '\n') : scanStep (c :: rest) = (none, rest) := by
  have hcases : c = ' ' ∨ c = '\t' ∨ c = '\r' := by
    simp [Char.isWhitespace] at hw
    tauto
  rcases hcases with h | h | h <;> subst h <;> rfl

/-- `keywordKind` only ever returns a keyword kind or `Word`. -/
theorem keywordKind_cases (l : List Char) :
    keywordKind l = .While ∨ keywordKind l = .For ∨ keywordKind l = .If ∨
    keywordKind l = .Elif ∨ keywordKind l = .Else ∨ keywordKind l = .Word := by
  unfold keywordKind
  split_ifs <;> simp

/-- Master case analysis of one scanning step, for arbitrary classifiers:
the remaining input is a suffix of the tail of the stream (so at least
the peeked character is consumed), and any emitted token satisfies the
kind/lexeme invariants needed below: no reserved `Type*` kind is ever
produced, a `OneQuoteStr` lexeme contains no single quote, and a
`TwoQuoteStr` lexeme is the inner text wrapped in literal double quotes.
These hold for every classifier because every branch satisfies them. -/
theorem scanStepWith_main (a w : Char → Bool) (c : Char) (rest : List Char) :
    (scanStepWith a w (c :: rest)).2 <:+ rest ∧
    ∀ t, (scanStepWith a w (c :: rest)).1 = some t →
      (t.kind ≠ .TypeInt ∧ t.kind ≠ .TypeLong ∧ t.kind ≠ .TypeChar ∧
       t.kind ≠ .TypeFloat ∧ t.kind ≠ .TypeDouble) ∧
      (t.kind = .OneQuoteStr → '\'' ∉ t.lexeme) ∧
      (t.kind = .TwoQuoteStr →
        ∃ v, t.lexeme = '"' :: v ++ ['"'] ∧ '"' ∉ v) := by
  by_cases h1 : c = '$'
  · subst h1
    have hstep : scanStepWith a w ('$' :: rest) =
        (some { kind := .Dollar, lexeme := ['$'] }, rest) := rfl
    rw [hstep]
    exact ⟨List.suffix_refl _, fun t ht => by simp at ht; subst ht; simp⟩
  by_cases h2 : c = ';'
  · subst h2
    have hstep : scanStepWith a w (';' :: rest) =
        (some { kind := .Semicolon, lexeme := [';'] }, rest) := rfl
    rw [hstep]
    exact ⟨List.suffix_refl _, fun t ht => by simp at ht; subst ht; simp⟩
  by_cases h3 : c = '('
  · subst h3
    have hstep : scanStepWith a w ('(' :: rest) =
        (some { kind := .LParen, lexeme := ['('] }, rest) := rfl
    rw [hstep]
    exact ⟨List.suffix_refl _, fun t ht => by simp at ht; subst ht; simp⟩
  by_cases h4 : c = ')'
  · subst h4
    have hstep : scanStepWith a w (')' :: rest) =
        (some { kind := .RParen, lexeme := [')'] }, rest) := rfl
    rw [hstep]
    exact ⟨List.suffix_refl _, fun t ht => by simp at ht; subst ht; simp⟩
  by_cases h5 : c = '{'
  · subst h5
    have hstep : scanStepWith a w ('{' :: rest) =
        (some { kind := .LCurly, lexeme := ['{'] }, rest) := rfl
    rw [hstep]
    exact ⟨List.suffix_refl _, fun t ht => by simp at ht; subst ht; simp⟩
  by_cases h6 : c = '}'
  · subst h6
    have hstep : scanStepWith a w ('}' :: rest) =
        (some { kind := .RCurly, lexeme := ['}'] }, rest) := rfl
    rw [hstep]
    exact ⟨List.suffix_refl _, fun t ht => by simp at ht; subst ht; simp⟩
  by_cases h7 : c = '['
  · subst h7
    have hstep : scanStepWith a w ('[' :: rest) =
        (some { kind := .LSquare, lexeme := ['['] }, rest) := rfl
    rw [hstep]
    exact ⟨List.suffix_refl _, fun t ht => by simp at ht; subst ht; simp⟩
  by_cases h8 : c = ']'
  · subst h8
    have hstep : scanStepWith a w (']' :: rest) =
        (some { kind := .RSquare, lexeme := [']'] }, rest) := rfl
    rw [hstep]
    exact ⟨List.suffix_refl _, fun t ht => by simp at ht; subst ht; simp⟩
  by_cases h9 : c = '='
  · subst h9
    rcases rest with _ | ⟨x, ts⟩
    · have hstep : scanStepWith a w ['='] =
          (some { kind := .Assign, lexeme := ['='] }, []) := rfl
      rw [hstep]
      exact ⟨List.suffix_refl _, fun t ht => by simp at ht; subst ht; simp⟩
    · have hstep : scanStepWith a w ('=' :: x :: ts) =
          if x = '=' then (some { kind := .Equality, lexeme := ['=', '='] }, ts)
          else (some { kind := .Assign, lexeme := ['='] }, x :: ts) := by
        by_cases hx : x = '=' <;> simp [scanStepWith, match_two_or_one, hx]
      rw [hstep]
      by_cases hx : x = '='
      · rw [if_pos hx]
        exact ⟨⟨[x], rfl⟩, fun t ht => by simp at ht; subst ht; simp⟩
      · rw [if_neg hx]
        exact ⟨List.suffix_refl _, fun t ht => by simp at ht; subst ht; simp⟩
  by_cases h10 : c = '!'
  · subst h10
    rcases rest with _ | ⟨x, ts⟩
    · have hstep : scanStepWith a w ['!'] =
          (some { kind := .LogicalNot, lexeme := ['!'] }, []) := rfl
      rw [hstep]
      exact ⟨List.suffix_refl _, fun t ht => by simp at ht; subst ht; simp⟩
    · have hstep : scanStepWith a w ('!' :: x :: ts) =
          if x = '=' then (some { kind := .Inequality, lexeme := ['!', '='] }, ts)
          else (some { kind := .LogicalNot, lexeme := ['!'] }, x :: ts) := by
        by_cases hx : x = '=' <;> simp [scanStepWith, match_two_or_one, hx]
      rw [hstep]
      by_cases hx : x = '='
      · rw [if_pos hx]
        exact ⟨⟨[x], rfl⟩, fun t ht => by simp at ht; subst ht; simp⟩
      · rw [if_neg hx]
        exact ⟨List.suffix_refl _, fun t ht => by simp at ht; subst ht; simp⟩
  by_cases h11 : c = '|'
  · subst h11
    rcases rest with _ | ⟨x, ts⟩
    · have hstep : scanStepWith a w ['|'] =
          (some { kind := .Pipe, lexeme := ['|'] }, []) := rfl
      rw [hstep]
      exact ⟨List.suffix_refl _, fun t ht => by simp at ht; subst ht; simp⟩
    · have hstep : scanStepWith a w ('|' :: x :: ts) =
          if x = '|' then (some { kind := .LogicalOr, lexeme := ['|', '|'] }, ts)
          else (some { kind := .Pipe, lexeme := ['|'] }, x :: ts) := by
        by_cases hx : x = '|' <;> simp [scanStepWith, match_two_or_one, hx]
      rw [hstep]
      by_cases hx : x = '|'
      · rw [if_pos hx]
        exact ⟨⟨[x], rfl⟩, fun t ht => by simp at ht; subst ht; simp⟩
      · rw [if_neg hx]
        exact ⟨List.suffix_refl _, fun t ht => by simp at ht; subst ht; simp⟩
  by_cases h12 : c = '&'
  · subst h12
    rcases rest with _ | ⟨x, ts⟩
    · have hstep : scanStepWith a w ['&'] =
          (some { kind := .Ampersand, lexeme := ['&'] }, []) := rfl
      rw [hstep]
      exact ⟨List.suffix_refl _, fun t ht => by simp at ht; subst ht; simp⟩
    · have hstep : scanStepWith a w ('&' :: x :: ts) =
          if x = '&' then (some { kind := .LogicalAnd, lexeme := ['&', '&'] }, ts)
          else (some { kind := .Ampersand, lexeme := ['&'] }, x :: ts) := by
        by_cases hx : x = '&' <;> simp [scanStepWith, match_two_or_one, hx]
      rw [hstep]
      by_cases hx : x = '&'
      · rw [if_pos hx]
        exact ⟨⟨[x], rfl⟩, fun t ht => by simp at ht; subst ht; simp⟩
      · rw [if_neg hx]
        exact ⟨List.suffix_refl _, fun t ht => by simp at ht; subst ht; simp⟩
  by_cases h13 : c = '>'
  · subst h13
    rcases rest with _ | ⟨x, ts⟩
    · have hstep : scanStepWith a w ['>'] =
          (some { kind := .Redirect, lexeme := ['>'] }, []) := rfl
      rw [hstep]
      exact ⟨List.suffix_refl _, fun t ht => by simp at ht; subst ht; simp⟩
    · have hstep : scanStepWith a w ('>' :: x :: ts) =
          if x = '>' then (some { kind := .CatRedirect, lexeme := ['>', '>'] }, ts)
          else (some { kind := .Redirect, lexeme := ['>'] }, x :: ts) := by
        by_cases hx : x = '>' <;> simp [scanStepWith, match_two_or_one, hx]
      rw [hstep]
      by_cases hx : x = '>'
      · rw [if_pos hx]
        exact ⟨⟨[x], rfl⟩, fun t ht => by simp at ht; subst ht; simp⟩
      · rw [if_neg hx]
        exact ⟨List.suffix_refl _, fun t ht => by simp at ht; subst ht; simp⟩
  by_cases h14 : a c = true
  · have hstep : scanStepWith a w (c :: rest) =
        (some { kind := keywordKind ((c :: rest).takeWhile a),
                lexeme := (c :: rest).takeWhile a },
         (c :: rest).dropWhile a) := by
      simp only [scanStepWith]
      rw [if_neg h1, if_neg h2, if_neg h3, if_neg h4, if_neg h5, if_neg h6,
        if_neg h7, if_neg h8, if_neg h9, if_neg h10, if_neg h11, if_neg h12,
        if_neg h13, if_pos h14]
    rw [hstep]
    constructor
    · rw [List.dropWhile_cons, if_pos h14]
      exact List.dropWhile_suffix _
    · intro t ht
      simp at ht
      subst ht
      rcases keywordKind_cases ((c :: rest).takeWhile a) with
        h | h | h | h | h | h <;> simp [h]
  by_cases h15 : c = '\'' ∨ c = '"'
  · rcases h15 with hq | hq
    · subst hq
      have hstep : scanStepWith a w ('\'' :: rest) =
          (some { kind := .OneQuoteStr,
                  lexeme := rest.takeWhile (fun x => x != '\'') },
           (rest.dropWhile (fun x => x != '\'')).drop 1) := by
        simp [scanStepWith, h14]
      rw [hstep]
      refine ⟨(List.drop_suffix _ _).trans (List.dropWhile_suffix _), ?_⟩
      intro t ht
      simp at ht
      subst ht
      refine ⟨by simp, ?_, by simp⟩
      intro _ hmem
      have := List.mem_takeWhile_imp hmem
      simp at this
    · subst hq
      have hstep : scanStepWith a w ('"' :: rest) =
          (some { kind := .TwoQuoteStr,
                  lexeme := '"' :: rest.takeWhile (fun x => x != '"') ++ ['"'] },
           (rest.dropWhile (fun x => x != '"')).drop 1) := by
        simp [scanStepWith, h14]
      rw [hstep]
      refine ⟨(List.drop_suffix _ _).trans (List.dropWhile_suffix _), ?_⟩
      intro t ht
      simp at ht
      subst ht
      refine ⟨by simp, by simp, ?_⟩
      intro _
      refine ⟨rest.takeWhile (fun x => x != '"'), by simp, ?_⟩
      intro hmem
      have := List.mem_takeWhile_imp hmem
      simp at this
  by_cases h16 : c = '\n'
  · subst h16
    have hstep : scanStepWith a w ('\n' :: rest) =
        (some { kind := .Newline, lexeme := ['\\', 'n'] }, rest) := by
      simp [scanStepWith, h14]
    rw [hstep]
    exact ⟨List.suffix_refl _, fun t ht => by simp at ht; subst ht; simp⟩
  by_cases h17 : w c = true
  · have hstep : scanStepWith a w (c :: rest) = (none, rest) := by
      simp only [scanStepWith]
      rw [if_neg h1, if_neg h2, if_neg h3, if_neg h4, if_neg h5, if_neg h6,
        if_neg h7, if_neg h8, if_neg h9, if_neg h10, if_neg h11, if_neg h12,
        if_neg h13, if_neg h14, if_neg h15, if_neg h16, if_pos h17]
    rw [hstep]
    exact ⟨List.suffix_refl _, fun t ht => by simp at ht⟩
  have hstep : scanStepWith a w (c :: rest) =
      (some { kind := .Unknown, lexeme := [c] }, rest) := by
    simp only [scanStepWith]
    rw [if_neg h1, if_neg h2, if_neg h3, if_neg h4, if_neg h5, if_neg h6,
      if_neg h7, if_neg h8, if_neg h9, if_neg h10, if_neg h11, if_neg h12,
      if_neg h13, if_neg h14, if_neg h15, if_neg h16, if_neg h17]
  rw [hstep]
  exact ⟨List.suffix_refl _, fun t ht => by simp at ht; subst ht; simp⟩

/-- The master case analysis at the fixed instantiation. -/
theorem scanStep_main (c : Char) (rest : List Char) :
    (scanStep (c :: rest)).2 <:+ rest ∧
    ∀ t, (scanStep (c :: rest)).1 = some t →
      (t.kind ≠ .TypeInt ∧ t.kind ≠ .TypeLong ∧ t.kind ≠ .TypeChar ∧
       t.kind ≠ .TypeFloat ∧ t.kind ≠ .TypeDouble) ∧
      (t.kind = .OneQuoteStr → '\'' ∉ t.lexeme) ∧
      (t.kind = .TwoQuoteStr →
        ∃ w, t.lexeme = '"' :: w ++ ['"'] ∧ '"' ∉ w) :=
  scanStepWith_main Char.isAlphanum Char.isWhitespace c rest

/-- Each iteration of the scanning loop strictly shrinks the remaining
input (it consumes at least the peeked character), for any classifiers. -/
theorem scanStepWith_snd_lt (a w : Char → Bool) (input : List Char)
    (h : input ≠ []) :
    (scanStepWith a w input).2.length < input.length := by
  cases input with
  | nil => exact absurd rfl h
  | cons c rest =>
    have hle := (scanStepWith_main a w c rest).1.length_le
    simp only [List.length_cons]
    omega

/-- Strict consumption at the fixed instantiation. -/
theorem scanStep_snd_lt (input : List Char) (h : input ≠ []) :
    (scanStep input).2.length < input.length :=
  scanStepWith_snd_lt Char.isAlphanum Char.isWhitespace input h

/-- The scanning loop of `tokenize` from `src/lexer.rs`: repeat the loop
body until the input is exhausted, pushing each emitted token.  The two
standard-library classifiers are parameters, as in `scanStepWith`. -/
def tokenizeWith (a w : Char → Bool) (input : List Char) : List Token :=
  match input with
  | [] => []
  | c :: rest =>
    (match (scanStepWith a w (c :: rest)).1 with
     | some t => [t]
     | none => []) ++ tokenizeWith a w (scanStepWith a w (c :: rest)).2
termination_by input.length
decreasing_by
  exact scanStepWith_snd_lt _ _ _ (List.cons_ne_nil _ _)

/-- The scanning loop at the fixed instantiation of the classifiers. -/
def tokenize (input : List Char) : List Token :=
  tokenizeWith Char.isAlphanum Char.isWhitespace input

theorem tokenizeWith_nil (a w : Char → Bool) : tokenizeWith a w [] = [] := by
  rw [tokenizeWith]

theorem tokenizeWith_cons (a w : Char → Bool) (c : Char) (rest : List Char) :
    tokenizeWith a w (c :: rest) =
      (match (scanStepWith a w (c :: rest)).1 with
       | some t => [t]
       | none => []) ++ tokenizeWith a w (scanStepWith a w (c :: rest)).2 := by
  rw [tokenizeWith]

theorem tokenize_nil : tokenize [] = [] :=
  tokenizeWith_nil Char.isAlphanum Char.isWhitespace

theorem tokenize_cons (c : Char) (rest : List Char) :
    tokenize (c :: rest) =
      (match (scanStep (c :: rest)).1 with
       | some t => [t]
       | none => []) ++ tokenize (scanStep (c :: rest)).2 :=
  tokenizeWith_cons Char.isAlphanum Char.isWhitespace c rest

/-- A fuel-indexed version of the scanning loop, structurally recursive so
that concrete runs can be evaluated by the kernel. -/
def tokenizeFuel : Nat → List Char → List Token
  | 0, _ => []
  | _ + 1, [] => []
  | n + 1, c :: rest =>
    (match (scanStep (c :: rest)).1 with
     | some t => [t]
     | none => []) ++ tokenizeFuel n (scanStep (c :: rest)).2

/-- With enough fuel, the fuel-indexed loop agrees with `tokenize`. -/
theorem tokenize_eq_fuel : ∀ (n : Nat) (input : List Char),
    input.length ≤ n → tokenize input = tokenizeFuel n input := by
  intro n
  induction n with
  | zero =>
    intro input h
    have hnil : input = [] := List.length_eq_zero.mp (Nat.le_zero.mp h)
    subst hnil
    rw [tokenize_nil]
    rfl
  | succ n ih =>
    intro input h
    cases input with
    | nil =>
      rw [tokenize_nil]
      rfl
    | cons c rest =>
      rw [tokenize_cons]
      have hlt := scanStep_snd_lt (c :: rest) (List.cons_ne_nil _ _)
      have hle : (scanStep (c :: rest)).2.length ≤ n := by
        simp only [List.length_cons] at hlt h
        omega
      rw [ih _ hle]
      rfl

/-- The raw matched span of each scanning step, in order: the prefix of
the remaining input consumed by that iteration of the loop. -/
def scanSpans (input : List Char) : List (List Char) :=
  match input with
  | [] => []
  | c :: rest =>
    (c :: rest).take ((c :: rest).length - (scanStep (c :: rest)).2.length) ::
      scanSpans (scanStep (c :: rest)).2
termination_by input.length
decreasing_by
  exact scanStep_snd_lt _ (List.cons_ne_nil _ _)

theorem scanSpans_nil : scanSpans [] = [] := by
  rw [scanSpans]

theorem scanSpans_cons (c : Char) (rest : List Char) :
    scanSpans (c :: rest) =
      (c :: rest).take ((c :: rest).length - (scanStep (c :: rest)).2.length) ::
        scanSpans (scanStep (c :: rest)).2 := by
  rw [scanSpans]

/-- Concatenating the raw matched spans reconstructs the input. -/
theorem scanSpans_flatten : ∀ (n : Nat) (input : List Char),
    input.length ≤ n → (scanSpans input).flatten = input := by
  intro n
  induction n with
  | zero =>
    intro input h
    have hnil : input = [] := List.length_eq_zero.mp (Nat.le_zero.mp h)
    subst hnil
    rw [scanSpans_nil]
    rfl
  | succ n ih =>
    intro input h
    cases input with
    | nil =>
      rw [scanSpans_nil]
      rfl
    | cons c rest =>
      obtain ⟨pre, hpre⟩ := (scanStep_main c rest).1
      have hlt := scanStep_snd_lt (c :: rest) (List.cons_ne_nil _ _)
      rw [scanSpans_cons, List.flatten_cons]
      have hle : (scanStep (c :: rest)).2.length ≤ n := by
        simp only [List.length_cons] at hlt h
        omega
      rw [ih _ hle]
      generalize (scanStep (c :: rest)).2 = r at hpre ⊢
      subst hpre
      rw [show c :: (pre ++ r) = (c :: pre) ++ r from rfl]
      rw [show ((c :: pre) ++ r).length - r.length = (c :: pre).length from by
        simp only [List.length_append]
        omega]
      rw [List.take_left]

/-- If `dropWhile` returns a cons, its head fails the predicate. -/
theorem dropWhile_eq_cons_imp {α : Type} {p : α → Bool} :
    ∀ {l : List α} {x : α} {ts : List α}, l.dropWhile p = x :: ts → p x = false := by
  intro l
  induction l with
  | nil =>
    intro x ts h
    simp at h
  | cons a l ih =>
    intro x ts h
    rw [List.dropWhile_cons] at h
    by_cases ha : p a = true
    · rw [if_pos ha] at h
      exact ih h
    · rw [if_neg ha] at h
      cases h
      simpa using ha

/-- The first character surviving `dropWhile`, if any, fails the predicate. -/
theorem head?_dropWhile {α : Type} (p : α → Bool) (l : List α) :
    ∀ x ∈ (l.dropWhile p).head?, p x = false := by
  intro x hx
  rcases hd : l.dropWhile p with _ | ⟨y, ts⟩
  · rw [hd] at hx
    simp at hx
  · rw [hd] at hx
    simp at hx
    subst hx
    exact dropWhile_eq_cons_imp hd

/-- `takeWhile`/`dropWhile` pass over a prefix on which the predicate
holds everywhere. -/
theorem takeWhile_dropWhile_append_all {α : Type} (p : α → Bool) :
    ∀ (w t : List α), (∀ x ∈ w, p x = true) →
      (w ++ t).takeWhile p = w ++ t.takeWhile p ∧
      (w ++ t).dropWhile p = t.dropWhile p := by
  intro w
  induction w with
  | nil =>
    intro t h
    simp
  | cons a w ih =>
    intro t h
    have ha : p a = true := h a (List.mem_cons_self a w)
    have hw : ∀ x ∈ w, p x = true := fun x hx => h x (List.mem_cons_of_mem a hx)
    obtain ⟨h1, h2⟩ := ih t hw
    constructor
    · simp only [List.cons_append, List.takeWhile_cons, if_pos ha, h1]
    · simp only [List.cons_append, List.dropWhile_cons, if_pos ha, h2]

/-- Length bound behind the termination claim: at most one token is
emitted per consumed character. -/
theorem tokenize_length_le : ∀ (n : Nat) (input : List Char),
    input.length ≤ n → (tokenize input).length ≤ input.length := by
  intro n
  induction n with
  | zero =>
    intro input h
    have hnil : input = [] := List.length_eq_zero.mp (Nat.le_zero.mp h)
    subst hnil
    simp [tokenize_nil]
  | succ n ih =>
    intro input h
    cases input with
    | nil => simp [tokenize_nil]
    | cons c rest =>
      rw [tokenize_cons]
      have hlt := scanStep_snd_lt (c :: rest) (List.cons_ne_nil _ _)
      have hsuf := (scanStep_main c rest).1.length_le
      have hle : (scanStep (c :: rest)).2.length ≤ n := by
        simp only [List.length_cons] at hlt h
        omega
      have ihr := ih _ hle
      rcases hstep : (scanStep (c :: rest)).1 with _ | t <;>
        simp only [hstep, List.length_append, List.length_cons,
          List.length_nil] <;> omega

/-- Every token in the output of `tokenize` comes from some scanning step,
hence satisfies the per-step kind/lexeme invariants. -/
theorem tokenize_emit : ∀ (n : Nat) (input : List Char), input.length ≤ n →
    ∀ t ∈ tokenize input,
      (t.kind ≠ .TypeInt ∧ t.kind ≠ .TypeLong ∧ t.kind ≠ .TypeChar ∧
       t.kind ≠ .TypeFloat ∧ t.kind ≠ .TypeDouble) ∧
      (t.kind = .OneQuoteStr → '\'' ∉ t.lexeme) ∧
      (t.kind = .TwoQuoteStr →
        ∃ w, t.lexeme = '"' :: w ++ ['"'] ∧ '"' ∉ w) := by
  intro n
  induction n with
  | zero =>
    intro input h t ht
    have hnil : input = [] := List.length_eq_zero.mp (Nat.le_zero.mp h)
    subst hnil
    rw [tokenize_nil] at ht
    simp at ht
  | succ n ih =>
    intro input h t ht
    cases input with
    | nil =>
      rw [tokenize_nil] at ht
      simp at ht
    | cons c rest =>
      rw [tokenize_cons] at ht
      have hlt := scanStep_snd_lt (c :: rest) (List.cons_ne_nil _ _)
      have hle : (scanStep (c :: rest)).2.length ≤ n := by
        simp only [List.length_cons] at hlt h
        omega
      rcases List.mem_append.mp ht with hm | hm
      · rcases hstep : (scanStep (c :: rest)).1 with _ | t0
        · rw [hstep] at hm
          simp at hm
        · rw [hstep] at hm
          simp at hm
          subst hm
          exact (scanStep_main c rest).2 _ hstep
      · exact ih _ hle t hm

/-! The claims. -/

/-- C1: for every input string, `tokenize` terminates and returns a finite
token sequence (never more tokens than input characters, so in particular
finite), and each iteration of the scanning loop consumes at least one
character of the remaining input. -/
theorem tokenize_total :
    ∀ input : List Char, (tokenize input).length ≤ input.length ∧
      ∀ (c : Char) (rest : List Char),
        (scanStep (c :: rest)).2.length < (c :: rest).length :=
  fun input => ⟨tokenize_length_le input.length input le_rfl,
    fun c rest => scanStep_snd_lt (c :: rest) (List.cons_ne_nil _ _)⟩

/-- C2: at a seed character in `{=, !, |, &, >}` the scanner emits the
two-character kind with the two-character lexeme exactly when the next
character is the designated partner; otherwise it emits the one-character
kind with only the seed as lexeme and leaves the lookahead character
unconsumed for the next iteration; at end of input the one-character kind
is emitted; hence `=!` yields `Assign` then `LogicalNot`. -/
theorem two_char_lookahead :
    (∀ (x : Char) (rest : List Char), scanStep ('=' :: x :: rest) =
      if x = '=' then (some { kind := .Equality, lexeme := ['=', '='] }, rest)
      else (some { kind := .Assign, lexeme := ['='] }, x :: rest)) ∧
    (∀ (x : Char) (rest : List Char), scanStep ('!' :: x :: rest) =
      if x = '=' then (some { kind := .Inequality, lexeme := ['!', '='] }, rest)
      else (some { kind := .LogicalNot, lexeme := ['!'] }, x :: rest)) ∧
    (∀ (x : Char) (rest : List Char), scanStep ('|' :: x :: rest) =
      if x = '|' then (some { kind := .LogicalOr, lexeme := ['|', '|'] }, rest)
      else (some { kind := .Pipe, lexeme := ['|'] }, x :: rest)) ∧
    (∀ (x : Char) (rest : List Char), scanStep ('&' :: x :: rest) =
      if x = '&' then (some { kind := .LogicalAnd, lexeme := ['&', '&'] }, rest)
      else (some { kind := .Ampersand, lexeme := ['&'] }, x :: rest)) ∧
    (∀ (x : Char) (rest : List Char), scanStep ('>' :: x :: rest) =
      if x = '>' then (some { kind := .CatRedirect, lexeme := ['>', '>'] }, rest)
      else (some { kind := .Redirect, lexeme := ['>'] }, x :: rest)) ∧
    scanStep ['='] = (some { kind := .Assign, lexeme := ['='] }, []) ∧
    scanStep ['!'] = (some { kind := .LogicalNot, lexeme := ['!'] }, []) ∧
    scanStep ['|'] = (some { kind := .Pipe, lexeme := ['|'] }, []) ∧
    scanStep ['&'] = (some { kind := .Ampersand, lexeme := ['&'] }, []) ∧
    scanStep ['>'] = (some { kind := .Redirect, lexeme := ['>'] }, []) ∧
    tokenize ['=', '!'] =
      [{ kind := .Assign, lexeme := ['='] },
       { kind := .LogicalNot, lexeme := ['!'] }] := by
  refine ⟨scanStep_assign, scanStep_bang, scanStep_pipe, scanStep_amp,
    scanStep_gt, scanStep_assign_one, scanStep_bang_one, scanStep_pipe_one,
    scanStep_amp_one, scanStep_gt_one, ?_⟩
  rw [tokenize_eq_fuel 2 ['=', '!'] (by decide)]
  decide

/-- C3: for every alphanumeric classifier (Rust's `char::is_alphanumeric`
is an external Unicode table, so the statement quantifies over it,
assuming only the recorded fact that the thirteen specially-matched
punctuation characters are not alphanumeric): at an alphanumeric
character the scanner consumes the maximal alphanumeric run as the lexeme
(the next remaining character, if any, is not alphanumeric), and a run
that is the whole input yields exactly one token carrying that run; the
kind is the keyword kind exactly for the five case-sensitive keywords and
`Word` for every other run, including mixed-case variants such as `While`
and pure digit runs. -/
theorem word_runs :
    ∀ is_alphanumeric is_whitespace : Char → Bool,
      (∀ d ∈ matchedPunct, is_alphanumeric d = false) →
      (∀ (c : Char) (rest : List Char), is_alphanumeric c = true →
        scanStepWith is_alphanumeric is_whitespace (c :: rest) =
          (some { kind := keywordKind ((c :: rest).takeWhile is_alphanumeric),
                  lexeme := (c :: rest).takeWhile is_alphanumeric },
           (c :: rest).dropWhile is_alphanumeric) ∧
        ∀ x ∈ ((c :: rest).dropWhile is_alphanumeric).head?,
          is_alphanumeric x = false) ∧
      (∀ run : List Char, run ≠ [] →
        (∀ x ∈ run, is_alphanumeric x = true) →
        tokenizeWith is_alphanumeric is_whitespace run =
          [{ kind := keywordKind run, lexeme := run }]) ∧
      keywordKind "while".data = .While ∧ keywordKind "for".data = .For ∧
      keywordKind "if".data = .If ∧ keywordKind "elif".data = .Elif ∧
      keywordKind "else".data = .Else ∧
      (∀ l : List Char, l ≠ "while".data → l ≠ "for".data → l ≠ "if".data →
        l ≠ "elif".data → l ≠ "else".data → keywordKind l = .Word) ∧
      keywordKind "While".data = .Word ∧ keywordKind "123".data = .Word := by
  intro a w hpunct
  refine ⟨fun c rest hc => ⟨scanStepWith_word a w c rest hpunct hc,
    head?_dropWhile _ _⟩, ?_, rfl, rfl, rfl, rfl, rfl, ?_, rfl, rfl⟩
  · intro run hne hall
    rcases run with _ | ⟨c, t⟩
    · exact absurd rfl hne
    · rw [tokenizeWith_cons,
        scanStepWith_word a w c t hpunct (hall c (List.mem_cons_self c t))]
      have hta := takeWhile_dropWhile_append_all a (c :: t) [] hall
      have htake : (c :: t).takeWhile a = c :: t := by simpa using hta.1
      have hdrop : (c :: t).dropWhile a = [] := by simpa using hta.2
      rw [htake, hdrop]
      simp [tokenizeWith_nil]
  · intro l m1 m2 m3 m4 m5
    simp [keywordKind, m1, m2, m3, m4, m5]

/-- C3 witness: at a concrete classifier satisfying the recorded facts
(Lean's ASCII predicate) and the concrete run `While`, the scan emits one
`Word` token carrying the whole run. -/
theorem word_runs_witness :
    (∀ d ∈ matchedPunct, Char.isAlphanum d = false) ∧
    ("While".data ≠ ([] : List Char)) ∧
    (∀ x ∈ "While".data, Char.isAlphanum x = true) ∧
    tokenizeWith Char.isAlphanum Char.isWhitespace "While".data =
      [{ kind := keywordKind "While".data, lexeme := "While".data }] := by
  refine ⟨by decide, by decide, by decide, ?_⟩
  exact (word_runs Char.isAlphanum Char.isWhitespace (by decide)).2.1
    "While".data (by decide) (by decide)

/-- C4: on a quote character the scanner consumes the opening quote, the
inner text, and the matching closing quote; a single-quoted span becomes
`OneQuoteStr` with the raw inner text, a double-quoted span becomes
`TwoQuoteStr` with the inner text re-wrapped in literal double quotes. -/
theorem quoted_strings :
    (∀ (w rest : List Char), (∀ x ∈ w, x ≠ '\'') →
      scanStep ('\'' :: (w ++ '\'' :: rest)) =
        (some { kind := .OneQuoteStr, lexeme := w }, rest)) ∧
    (∀ (w rest : List Char), (∀ x ∈ w, x ≠ '"') →
      scanStep ('"' :: (w ++ '"' :: rest)) =
        (some { kind := .TwoQuoteStr, lexeme := '"' :: w ++ ['"'] }, rest)) ∧
    tokenize "'hi'".data = [{ kind := .OneQuoteStr, lexeme := "hi".data }] ∧
    tokenize "\"hi\"".data =
      [{ kind := .TwoQuoteStr, lexeme := "\"hi\"".data }] := by
  refine ⟨?_, ?_, ?_, ?_⟩
  · intro w rest hw
    rw [scanStep_one_quote]
    have hall : ∀ x ∈ w, (x != '\'') = true := fun x hx => by
      simpa using hw x hx
    obtain ⟨htake, hdrop⟩ :=
      takeWhile_dropWhile_append_all (fun x => x != '\'') w ('\'' :: rest) hall
    rw [htake, hdrop]
    simp [List.takeWhile_cons, List.dropWhile_cons]
  · intro w rest hw
    rw [scanStep_two_quote]
    have hall : ∀ x ∈ w, (x != '"') = true := fun x hx => by
      simpa using hw x hx
    obtain ⟨htake, hdrop⟩ :=
      takeWhile_dropWhile_append_all (fun x => x != '"') w ('"' :: rest) hall
    rw [htake, hdrop]
    simp [List.takeWhile_cons, List.dropWhile_cons]
  · rw [tokenize_eq_fuel 4 "'hi'".data (by decide)]
    decide
  · rw [tokenize_eq_fuel 4 "\"hi\"".data (by decide)]
    decide

/-- C4 witness: the single-quote rule at the concrete inner text `hi`. -/
theorem quoted_strings_witness :
    (∀ x ∈ ("hi".data : List Char), x ≠ '\'') ∧
    scanStep ('\'' :: ("hi".data ++ '\'' :: [])) =
      (some { kind := .OneQuoteStr, lexeme := "hi".data }, []) :=
  ⟨by decide, quoted_strings.1 "hi".data [] (by decide)⟩

/-- C5: an opening quote with no matching closing quote consumes to end of
input with no error and still emits one string token; the closing quote in
a `TwoQuoteStr` lexeme is synthesized by the re-wrap. -/
theorem unterminated_quote :
    ∀ w : List Char, '"' ∉ w →
      tokenize ('"' :: w) =
        [{ kind := .TwoQuoteStr, lexeme := '"' :: w ++ ['"'] }] := by
  intro w hw
  have hall : ∀ x ∈ w, (x != '"') = true := fun x hx => by
    simp only [bne_iff_ne, ne_eq]
    intro he
    subst he
    exact hw hx
  have hstep : scanStep ('"' :: w) =
      (some { kind := .TwoQuoteStr, lexeme := '"' :: w ++ ['"'] }, []) := by
    rw [scanStep_two_quote]
    have hta := takeWhile_dropWhile_append_all (fun x => x != '"') w [] hall
    have ht : w.takeWhile (fun x => x != '"') = w := by simpa using hta.1
    have hd : w.dropWhile (fun x => x != '"') = [] := by simpa using hta.2
    rw [ht, hd]
    rfl
  rw [tokenize_cons, hstep]
  simp [tokenize_nil]

/-- C5 witness: the unterminated double quote on the concrete input
`"abc`. -/
theorem unterminated_quote_witness :
    '"' ∉ (['a', 'b', 'c'] : List Char) ∧
    tokenize ('"' :: ['a', 'b', 'c']) =
      [{ kind := .TwoQuoteStr, lexeme := '"' :: ['a', 'b', 'c'] ++ ['"'] }] :=
  ⟨by decide, unterminated_quote ['a', 'b', 'c'] (by decide)⟩

/-- C6: concatenating in order the raw matched input spans of all scanning
steps reconstructs the original input exactly. -/
theorem spans_reconstruct :
    ∀ input : List Char, (scanSpans input).flatten = input :=
  fun input => scanSpans_flatten input.length input le_rfl

/-- C7: for all classifiers (Rust's `char::is_alphanumeric` and
`char::is_whitespace` are external Unicode tables, so the statement
quantifies over them, assuming only recorded facts of those tables:
whitespace is disjoint from alphanumeric, no whitespace character is one
of the fifteen specially-matched characters, and space, tab and newline
are whitespace): a literal newline produces a `Newline` token whose
lexeme is the two characters backslash and `n`; every other whitespace
character is consumed with no token; a run of pure spaces and tabs
tokenizes to the empty sequence. -/
theorem newline_and_whitespace :
    ∀ is_alphanumeric is_whitespace : Char → Bool,
      (∀ d, is_whitespace d = true → is_alphanumeric d = false) →
      (∀ d, is_whitespace d = true → d ∉ specialChars) →
      is_whitespace ' ' = true → is_whitespace '\t' = true →
      is_whitespace '\n' = true →
      (∀ rest : List Char,
        scanStepWith is_alphanumeric is_whitespace ('\n' :: rest) =
          (some { kind := .Newline, lexeme := ['\\', 'n'] }, rest)) ∧
      (∀ (c : Char) (rest : List Char), is_whitespace c = true → c ≠ '\n' →
        scanStepWith is_alphanumeric is_whitespace (c :: rest) =
          (none, rest)) ∧
      (∀ ws : List Char, (∀ c ∈ ws, c = ' ' ∨ c = '\t') →
        tokenizeWith is_alphanumeric is_whitespace ws = []) ∧
      tokenizeWith is_alphanumeric is_whitespace ['\n'] =
        [{ kind := .Newline, lexeme := ['\\', 'n'] }] := by
  intro a w hdisj hspec hsp htab hnl
  have hnl_a : a '\n' = false := hdisj '\n' hnl
  have hws_step : ∀ (c : Char) (rest : List Char), w c = true → c ≠ '\n' →
      scanStepWith a w (c :: rest) = (none, rest) := fun c rest hc hn =>
    scanStepWith_ws a w c rest hc hn (hdisj c hc) (hspec c hc)
  refine ⟨scanStepWith_newline a w hnl_a, hws_step, ?_, ?_⟩
  · intro ws
    induction ws with
    | nil => intro _; exact tokenizeWith_nil a w
    | cons c t ih =>
      intro h
      rw [tokenizeWith_cons]
      have hcw : w c = true := by
        rcases h c (List.mem_cons_self c t) with h' | h' <;> subst h'
        · exact hsp
        · exact htab
      have hcn : c ≠ '\n' := by
        rcases h c (List.mem_cons_self c t) with h' | h' <;> subst h' <;> decide
      rw [hws_step c t hcw hcn]
      simp [ih (fun x hx => h x (List.mem_cons_of_mem c hx))]
  · rw [tokenizeWith_cons, scanStepWith_newline a w hnl_a]
    simp [tokenizeWith_nil]

/-- C7 witness: at concrete classifiers satisfying the recorded facts
(Lean's ASCII predicates), the concrete run of a space and a tab
tokenizes to the empty sequence. -/
theorem newline_and_whitespace_witness :
    (∀ c ∈ ([' ', '\t'] : List Char), c = ' ' ∨ c = '\t') ∧
    tokenizeWith Char.isAlphanum Char.isWhitespace [' ', '\t'] = [] := by
  have hdisj : ∀ d : Char, d.isWhitespace = true → d.isAlphanum = false := by
    intro d hd
    simp [Char.isWhitespace] at hd
    rcases hd with ((h | h) | h) | h <;> subst h <;> decide
  have hspec : ∀ d : Char, d.isWhitespace = true → d ∉ specialChars := by
    intro d hd
    simp [Char.isWhitespace] at hd
    rcases hd with ((h | h) | h) | h <;> subst h <;> decide
  refine ⟨by decide, ?_⟩
  exact (newline_and_whitespace Char.isAlphanum Char.isWhitespace hdisj hspec
    (by decide) (by decide) (by decide)).2.2.1 [' ', '\t'] (by decide)

/-- C8: no token emitted by `tokenize` ever has one of the reserved kinds
`TypeInt`, `TypeLong`, `TypeChar`, `TypeFloat`, `TypeDouble`. -/
theorem reserved_type_kinds_unused :
    ∀ (input : List Char) (t : Token), t ∈ tokenize input →
      t.kind ≠ .TypeInt ∧ t.kind ≠ .TypeLong ∧ t.kind ≠ .TypeChar ∧
      t.kind ≠ .TypeFloat ∧ t.kind ≠ .TypeDouble :=
  fun input t h => (tokenize_emit input.length input le_rfl t h).1

/-- C8 witness: the token produced for the concrete input `a`. -/
theorem reserved_type_kinds_unused_witness :
    ({ kind := .Word, lexeme := ['a'] } : Token) ∈ tokenize ['a'] ∧
    (({ kind := .Word, lexeme := ['a'] } : Token).kind ≠ .TypeInt ∧
     ({ kind := .Word, lexeme := ['a'] } : Token).kind ≠ .TypeLong ∧
     ({ kind := .Word, lexeme := ['a'] } : Token).kind ≠ .TypeChar ∧
     ({ kind := .Word, lexeme := ['a'] } : Token).kind ≠ .TypeFloat ∧
     ({ kind := .Word, lexeme := ['a'] } : Token).kind ≠ .TypeDouble) := by
  have hm : ({ kind := .Word, lexeme := ['a'] } : Token) ∈ tokenize ['a'] := by
    rw [tokenize_eq_fuel 1 ['a'] (by decide)]
    decide
  exact ⟨hm, reserved_type_kinds_unused ['a'] _ hm⟩

/-- C9: the two-character matching helper hits its panic exactly on an
exhausted stream (modelled by `none`), and on every nonempty stream — the
only way `tokenize` invokes it, after a successful peek — it succeeds, so
the panic branch is unreachable from `tokenize`. -/
theorem helper_precondition_panic :
    (∀ (s : Char) (k1 k2 : TokenKind), match_two_or_one [] s k1 k2 = none) ∧
    (∀ (f : Char) (rest : List Char) (s : Char) (k1 k2 : TokenKind),
      (match_two_or_one (f :: rest) s k1 k2).isSome = true) := by
  refine ⟨fun s k1 k2 => rfl, fun f rest s k1 k2 => ?_⟩
  cases rest with
  | nil => rfl
  | cons x ts =>
    rw [match_two_or_one_cons]
    by_cases hx : x = s <;> simp [hx]

/-- C10: every `OneQuoteStr` token's lexeme contains no single quote, and
every `TwoQuoteStr` token's lexeme is a double quote, then an interior with
no double quote, then a double quote. -/
theorem quote_token_invariants :
    ∀ (input : List Char) (t : Token), t ∈ tokenize input →
      (t.kind = .OneQuoteStr → '\'' ∉ t.lexeme) ∧
      (t.kind = .TwoQuoteStr →
        ∃ w, t.lexeme = '"' :: w ++ ['"'] ∧ '"' ∉ w) :=
  fun input t h => (tokenize_emit input.length input le_rfl t h).2

/-- C10 witness: the `OneQuoteStr` token produced for the concrete input
`'hi'`. -/
theorem quote_token_invariants_witness :
    ({ kind := .OneQuoteStr, lexeme := "hi".data } : Token) ∈
      tokenize "'hi'".data ∧
    (({ kind := .OneQuoteStr, lexeme := "hi".data } : Token).kind =
        .OneQuoteStr →
      '\'' ∉ ({ kind := .OneQuoteStr, lexeme := "hi".data } : Token).lexeme) := by
  have hm : ({ kind := .OneQuoteStr, lexeme := "hi".data } : Token) ∈
      tokenize "'hi'".data := by
    rw [tokenize_eq_fuel 4 "'hi'".data (by decide)]
    decide
  exact ⟨hm, (quote_token_invariants "'hi'".data _ hm).1⟩

end Pearsh
